import Mathlib

/-!
Shallow embedding of the tic-tac-toe game logic from `src/CompleteSrc/App.tsx`
(the completed source of the TypeScript React tic-tac-toe companion guide).

The game state consists of a history of board snapshots and a cursor
(`currentMove`) into that history.  A board is a list of nine cells, each
either empty (`none`) or holding one of the two marks.  TypeScript array
reads out of range yield `undefined` (falsy), which we model by `List.getD`
with default `none`; `nextSquares[i] = ...` on a copied array is modelled by
`List.set`.
-/

/-- The two players' marks: `X` and `O` (the strings `'X'` / `'O'` in the
source). -/
inductive Mark where
  | X : Mark
  | O : Mark
deriving DecidableEq, Repr, Fintype

/-- A cell of the board: `null` in the source is `none`, a mark is `some`. -/
abbrev Cell := Option Mark

/-- A board snapshot: `squares : string[]` in the source, nine cells in the
running application. -/
abbrev Board := List Cell

/-- The all-empty board `Array(9).fill(null)`. -/
def emptyBoard : Board := List.replicate 9 none

/-- The eight fixed triples of cell indices checked by `calculateWinner`:
three rows, three columns, two diagonals, in the order of the `lines`
array literal in the source. -/
def lines : List (Nat × Nat × Nat) :=
  [(0, 1, 2), (3, 4, 5), (6, 7, 8), (0, 3, 6), (1, 4, 7), (2, 5, 8),
   (0, 4, 8), (2, 4, 6)]

/-- The loop body of `calculateWinner`: walk the list of lines; for the first
line whose cell `a` is non-empty (`squares[a]` truthy) and whose cells `b`
and `c` hold the same mark (`squares[a] === squares[b]` and
`squares[a] === squares[c]`), return that mark; otherwise fall off the end
(the TypeScript function returns `undefined`, i.e. `none`). -/
def winnerAux (squares : Board) : List (Nat × Nat × Nat) → Option Mark
  | [] => none
  | (a, b, c) :: rest =>
    if (squares.getD a none).isSome ∧
        squares.getD a none = squares.getD b none ∧
        squares.getD a none = squares.getD c none then
      squares.getD a none
    else
      winnerAux squares rest

/-- `calculateWinner(squares)` from the source: scans the eight lines in
order and returns the first winning mark, or `none`. -/
def calculateWinner (squares : Board) : Option Mark :=
  winnerAux squares lines

/-- A line `(a, b, c)` is complete on `squares` with mark `m`: all three
cells are non-empty and hold the common mark `m`. -/
def lineComplete (squares : Board) (t : Nat × Nat × Nat) (m : Mark) : Prop :=
  squares.getD t.1 none = some m ∧ squares.getD t.2.1 none = some m ∧
    squares.getD t.2.2 none = some m

instance (squares : Board) (t : Nat × Nat × Nat) (m : Mark) :
    Decidable (lineComplete squares t m) := by
  unfold lineComplete; infer_instance

/-- The component state of `Game`: the `history` list of board snapshots and
the `currentMove` cursor. -/
structure GameState where
  history : List Board
  currentMove : Nat
deriving DecidableEq, Repr

/-- `const [history, setHistory] = useState([Array(9).fill(null)])` and
`const [currentMove, setCurrentMove] = useState(0)`: the initial state. -/
def initialState : GameState := ⟨[emptyBoard], 0⟩

/-- `const xIsNext = currentMove % 2 === 0`. -/
def xIsNext (s : GameState) : Bool := s.currentMove % 2 == 0

/-- `const currentSquares = history[currentMove]` (an out-of-range read would
be `undefined`; we default to `[]`). -/
def currentSquares (s : GameState) : Board := s.history.getD s.currentMove []

/-- `Game.handlePlay(nextSquares)`: truncate the history to indices
`0..currentMove`, append the new snapshot, and move the cursor to the new
end of the history. -/
def handlePlay (s : GameState) (nextSquares : Board) : GameState :=
  let nextHistory := s.history.take (s.currentMove + 1) ++ [nextSquares]
  ⟨nextHistory, nextHistory.length - 1⟩

/-- `Board.handleClick(i)` combined with the `onPlay` callback: if the cell
is occupied (`props.squares[i]` truthy) or `calculateWinner` reports a
winner, return without any state change; otherwise copy the board, set cell
`i` to `'X'` or `'O'` by `xIsNext`, and hand it to `handlePlay`. -/
def handleClick (s : GameState) (i : Nat) : GameState :=
  if ((currentSquares s).getD i none).isSome
      || (calculateWinner (currentSquares s)).isSome then
    s
  else
    handlePlay s
      ((currentSquares s).set i
        (if xIsNext s then some Mark.X else some Mark.O))

/-- `Game.jumpTo(nextMove)`: set the cursor; the history is untouched. -/
def jumpTo (s : GameState) (nextMove : Nat) : GameState :=
  ⟨s.history, nextMove⟩

/-- Number of non-empty cells of a board. -/
def countFilled (b : Board) : Nat := b.countP (·.isSome)

/-- The states reachable in the running application: the initial state,
followed by clicks on one of the nine squares (`handleClick(0)` …
`handleClick(8)`) and jumps to an index produced by rendering the history
list (`history.map((squares, move) => ...)`, so `0 ≤ t < history.length`). -/
inductive Reachable : GameState → Prop where
  | init : Reachable initialState
  | move {s : GameState} (i : Nat) (hi : i < 9) (hs : Reachable s) :
      Reachable (handleClick s i)
  | jump {s : GameState} (t : Nat) (ht : t < s.history.length)
      (hs : Reachable s) : Reachable (jumpTo s t)

/-! ### Helper lemmas about list indexing -/

theorem getD_set_self {l : List Cell} {i : Nat} (h : i < l.length)
    (a d : Cell) : (l.set i a).getD i d = a := by
  induction l generalizing i with
  | nil => simp at h
  | cons x xs ih =>
    cases i with
    | zero => rfl
    | succ j => simpa using ih (Nat.lt_of_succ_lt_succ h)

theorem getD_set_ne {l : List Cell} {i j : Nat} (h : j ≠ i) (a d : Cell) :
    (l.set i a).getD j d = l.getD j d := by
  induction l generalizing i j with
  | nil => rfl
  | cons x xs ih =>
    cases i with
    | zero =>
      cases j with
      | zero => exact absurd rfl h
      | succ k => rfl
    | succ n =>
      cases j with
      | zero => rfl
      | succ k =>
        have hk : k ≠ n := fun hk => h (congrArg Nat.succ hk)
        simpa using ih (i := n) (j := k) hk

theorem getD_take {l : List Board} {k n : Nat} (h : k < n) (d : Board) :
    (l.take n).getD k d = l.getD k d := by
  induction l generalizing k n with
  | nil => simp
  | cons x xs ih =>
    cases n with
    | zero => exact absurd h (Nat.not_lt_zero k)
    | succ n' =>
      cases k with
      | zero => rfl
      | succ k' => exact ih (Nat.lt_of_succ_lt_succ h)

theorem getD_concat_length (l : List Board) (x d : Board) :
    (l ++ [x]).getD l.length d = x := by
  induction l with
  | nil => rfl
  | cons y ys ih => exact ih

theorem countFilled_set {l : List Cell} {i : Nat} (h : i < l.length)
    (he : l.getD i none = none) (m : Mark) :
    countFilled (l.set i (some m)) = countFilled l + 1 := by
  induction l generalizing i with
  | nil => simp at h
  | cons x xs ih =>
    cases i with
    | zero =>
      have hx : x = none := he
      subst hx
      simp [countFilled, List.countP_cons]
    | succ j =>
      have ih' := ih (Nat.lt_of_succ_lt_succ h) he
      show countFilled (x :: xs.set j (some m)) = countFilled (x :: xs) + 1
      simp only [countFilled, List.countP_cons] at ih' ⊢
      omega

theorem countFilled_le_length (b : Board) : countFilled b ≤ b.length :=
  List.countP_le_length _

/-! ### Lemmas about the winner scan -/

/-- The scan condition of a line holds exactly when the line is complete
with some mark. -/
theorem scanCond_iff (squares : Board) (a b c : Nat) :
    ((squares.getD a none).isSome ∧
        squares.getD a none = squares.getD b none ∧
        squares.getD a none = squares.getD c none) ↔
      ∃ m : Mark, lineComplete squares (a, b, c) m := by
  constructor
  · rintro ⟨hsome, hab, hac⟩
    obtain ⟨m, hm⟩ := Option.isSome_iff_exists.mp hsome
    exact ⟨m, hm, hab ▸ hm, hac ▸ hm⟩
  · rintro ⟨m, h1, h2, h3⟩
    have h1' : squares.getD a none = some m := h1
    have h2' : squares.getD b none = some m := h2
    have h3' : squares.getD c none = some m := h3
    exact ⟨by rw [h1']; rfl, by rw [h1', h2'], by rw [h1', h3']⟩

theorem winnerAux_eq_some {squares : Board} {ls : List (Nat × Nat × Nat)}
    {m : Mark} (h : winnerAux squares ls = some m) :
    ∃ t ∈ ls, lineComplete squares t m := by
  induction ls with
  | nil => simp [winnerAux] at h
  | cons t rest ih =>
    obtain ⟨a, b, c⟩ := t
    rw [winnerAux] at h
    by_cases hcond : (squares.getD a none).isSome ∧
        squares.getD a none = squares.getD b none ∧
        squares.getD a none = squares.getD c none
    · rw [if_pos hcond] at h
      obtain ⟨m', hm'⟩ := (scanCond_iff squares a b c).mp hcond
      rw [hm'.1] at h
      exact ⟨(a, b, c), List.mem_cons_self _ _, Option.some.inj h ▸ hm'⟩
    · rw [if_neg hcond] at h
      obtain ⟨t', ht', hc⟩ := ih h
      exact ⟨t', List.mem_cons_of_mem _ ht', hc⟩

theorem winnerAux_isSome {squares : Board} {ls : List (Nat × Nat × Nat)}
    {t : Nat × Nat × Nat} {m : Mark} (ht : t ∈ ls)
    (hc : lineComplete squares t m) : (winnerAux squares ls).isSome := by
  induction ls with
  | nil => simp at ht
  | cons u rest ih =>
    obtain ⟨a, b, c⟩ := u
    rw [winnerAux]
    by_cases hcond : (squares.getD a none).isSome ∧
        squares.getD a none = squares.getD b none ∧
        squares.getD a none = squares.getD c none
    · rw [if_pos hcond]; exact hcond.1
    · rw [if_neg hcond]
      rcases List.mem_cons.mp ht with heq | hmem
      · exact absurd ((scanCond_iff squares a b c).mpr ⟨m, heq ▸ hc⟩) hcond
      · exact ih hmem

theorem winnerAux_skip {squares : Board} {t : Nat × Nat × Nat}
    (ls : List (Nat × Nat × Nat))
    (hn : ∀ m : Mark, ¬ lineComplete squares t m) :
    winnerAux squares (t :: ls) = winnerAux squares ls := by
  obtain ⟨a, b, c⟩ := t
  rw [winnerAux]
  rw [if_neg (fun hcond => by
    obtain ⟨m, hm⟩ := (scanCond_iff squares a b c).mp hcond
    exact hn m hm)]

theorem winnerAux_first {squares : Board} {m : Mark}
    {t : Nat × Nat × Nat} (pre post : List (Nat × Nat × Nat))
    (hc : lineComplete squares t m)
    (hpre : ∀ t' ∈ pre, ∀ m' : Mark, ¬ lineComplete squares t' m') :
    winnerAux squares (pre ++ t :: post) = some m := by
  induction pre with
  | nil =>
    obtain ⟨a, b, c⟩ := t
    rw [List.nil_append, winnerAux,
      if_pos ((scanCond_iff squares a b c).mpr ⟨m, hc⟩), hc.1]
  | cons u rest ih =>
    rw [List.cons_append,
      winnerAux_skip _ (fun m' hm' => hpre u (List.mem_cons_self _ _) m' hm'),
      ih (fun t' ht' => hpre t' (List.mem_cons_of_mem _ ht'))]

/-! ### Helper lemmas about the move handler -/

theorem handleClick_of_rejected {s : GameState} {i : Nat}
    (h : ¬((currentSquares s).getD i none = none ∧
      calculateWinner (currentSquares s) = none)) :
    handleClick s i = s := by
  cases hget : (currentSquares s).getD i none with
  | some m => rw [handleClick, hget]; rfl
  | none =>
    cases hwin : calculateWinner (currentSquares s) with
    | some m => rw [handleClick, hget, hwin]; rfl
    | none => exact absurd ⟨hget, hwin⟩ h

theorem handleClick_of_accepted {s : GameState} {i : Nat}
    (he : (currentSquares s).getD i none = none)
    (hw : calculateWinner (currentSquares s) = none) :
    handleClick s i =
      handlePlay s
        ((currentSquares s).set i
          (if xIsNext s then some Mark.X else some Mark.O)) := by
  rw [handleClick, he, hw]; rfl

theorem history_handlePlay (s : GameState) (nb : Board) :
    (handlePlay s nb).history = s.history.take (s.currentMove + 1) ++ [nb] :=
  rfl

theorem currentMove_handlePlay (s : GameState) (nb : Board) :
    (handlePlay s nb).currentMove = (handlePlay s nb).history.length - 1 :=
  rfl

theorem currentSquares_handlePlay (s : GameState) (nb : Board) :
    currentSquares (handlePlay s nb) = nb := by
  show ((s.history.take (s.currentMove + 1) ++ [nb]).getD
    ((s.history.take (s.currentMove + 1) ++ [nb]).length - 1) []) = nb
  rw [List.length_append, List.length_cons, List.length_nil,
    Nat.add_sub_cancel]
  exact getD_concat_length _ _ _

/-! ### The reachable-state invariant -/

/-- The invariant maintained by the game: the cursor is a valid index into
the history, the first snapshot is the all-empty board, and the snapshot at
index `k` is a nine-cell board with exactly `k` filled cells. -/
def GameInv (s : GameState) : Prop :=
  s.currentMove < s.history.length ∧
  s.history.getD 0 [] = emptyBoard ∧
  ∀ k, k < s.history.length →
    (s.history.getD k []).length = 9 ∧ countFilled (s.history.getD k []) = k

theorem inv_initialState : GameInv initialState := by
  refine ⟨by decide, rfl, ?_⟩
  intro k hk
  have hk0 : k = 0 := Nat.lt_one_iff.mp hk
  subst hk0
  exact ⟨rfl, rfl⟩

theorem inv_handleClick {s : GameState} (hs : GameInv s) {i : Nat} (hi : i < 9) :
    GameInv (handleClick s i) := by
  obtain ⟨hcur, h0, hk⟩ := hs
  by_cases hacc : (currentSquares s).getD i none = none ∧
      calculateWinner (currentSquares s) = none
  · obtain ⟨he, hw⟩ := hacc
    rw [handleClick_of_accepted he hw]
    have hcs : currentSquares s = s.history.getD s.currentMove [] := rfl
    obtain ⟨hclen, hccount⟩ := hk s.currentMove hcur
    have htl : (s.history.take (s.currentMove + 1)).length =
        s.currentMove + 1 := by
      rw [List.length_take]; omega
    set nb := (currentSquares s).set i
      (if xIsNext s then some Mark.X else some Mark.O) with hnb
    have hlen' : (handlePlay s nb).history.length = s.currentMove + 2 := by
      rw [history_handlePlay, List.length_append, htl]; rfl
    refine ⟨?_, ?_, ?_⟩
    · rw [currentMove_handlePlay, hlen']; omega
    · rw [history_handlePlay, List.getD_append _ _ _ _ (by omega),
        getD_take (by omega)]
      exact h0
    · intro k hklt
      rw [hlen'] at hklt
      rw [history_handlePlay]
      by_cases hkc : k < s.currentMove + 1
      · rw [List.getD_append _ _ _ _ (by omega), getD_take hkc]
        exact hk k (by omega)
      · have hkeq : k = s.currentMove + 1 := by omega
        subst hkeq
        have hat := getD_concat_length (s.history.take (s.currentMove + 1)) nb []
        rw [htl] at hat
        rw [hat]
        have hcslen : (currentSquares s).length = 9 := by rw [hcs]; exact hclen
        constructor
        · rw [hnb, List.length_set]
          exact hcslen
        · have hsome : (if xIsNext s then some Mark.X else some Mark.O) =
              some (if xIsNext s then Mark.X else Mark.O) := by
            cases xIsNext s <;> rfl
          rw [hnb, hsome, countFilled_set (by omega) he, hcs, hccount]
  · rw [handleClick_of_rejected hacc]
    exact ⟨hcur, h0, hk⟩

theorem inv_jumpTo {s : GameState} (hs : GameInv s) {t : Nat}
    (ht : t < s.history.length) : GameInv (jumpTo s t) :=
  ⟨ht, hs.2.1, hs.2.2⟩

theorem inv_reachable {s : GameState} (hs : Reachable s) : GameInv s := by
  induction hs with
  | init => exact inv_initialState
  | move i hi _ ih => exact inv_handleClick ih hi
  | jump t ht _ ih => exact inv_jumpTo ih ht

/-! ### Concrete boards and states used as inputs -/

/-- A board whose top row is complete with `X` and whose middle row is
complete with `O`. -/
def badBoard : Board :=
  [some Mark.X, some Mark.X, some Mark.X, some Mark.O, some Mark.O,
   some Mark.O, none, none, none]

/-- A board whose top row is complete with `X` and with no other mark. -/
def topRowBoard : Board :=
  [some Mark.X, some Mark.X, some Mark.X, none, none, none, none, none,
   none]

/-- A state with one snapshot whose cell 0 is occupied. -/
def occupiedState : GameState :=
  ⟨[[some Mark.X, none, none, none, none, none, none, none, none]], 0⟩

/-- The state reached from the initial state by clicking cells
0, 3, 1, 5, 4, 7, 6, 8 in that order: `X` occupies cells 0, 1, 4, 6 and `O`
occupies cells 3, 5, 7, 8; cell 2 is empty and there is no winner yet. -/
def demoState : GameState :=
  handleClick (handleClick (handleClick (handleClick (handleClick
    (handleClick (handleClick (handleClick initialState 0) 3) 1) 5) 4) 7)
      6) 8

/-- The conclusion of the move specification: after an accepted click on
cell `i`, the history is the old history truncated to indices
`0..currentMove` with the new snapshot appended, the cursor is the last
index of the new history, and the new current snapshot agrees with the old
one everywhere except cell `i`, which now holds the active mark. -/
def MovePost (s : GameState) (i : Nat) : Prop :=
  (handleClick s i).history =
      s.history.take (s.currentMove + 1) ++
        [(currentSquares s).set i
          (if xIsNext s then some Mark.X else some Mark.O)] ∧
  (handleClick s i).currentMove = (handleClick s i).history.length - 1 ∧
  currentSquares (handleClick s i) =
      (currentSquares s).set i
        (if xIsNext s then some Mark.X else some Mark.O) ∧
  (currentSquares (handleClick s i)).getD i none =
      (if xIsNext s then some Mark.X else some Mark.O) ∧
  (∀ j, j ≠ i →
    (currentSquares (handleClick s i)).getD j none =
      (currentSquares s).getD j none) ∧
  (currentSquares (handleClick s i)).length = (currentSquares s).length

/-! ### The claims -/

/-- C1: for every state and every cell index `i` in `0..8`, if cell `i` of
the current snapshot is empty and the win evaluator reports no winner, then
the click produces a new snapshot equal to the current one except cell `i`
set to the active mark, a new history equal to the old history truncated to
indices `0..cursor` with the new snapshot appended, and a new cursor equal
to the last index of the new history. -/
theorem handleClick_move_spec (s : GameState) (i : Nat) (hi : i < 9)
    (hlen : (currentSquares s).length = 9)
    (he : (currentSquares s).getD i none = none)
    (hw : calculateWinner (currentSquares s) = none) : MovePost s i := by
  have hacc := handleClick_of_accepted he hw
  unfold MovePost
  rw [hacc]
  refine ⟨history_handlePlay s _, currentMove_handlePlay s _,
    currentSquares_handlePlay s _, ?_, ?_, ?_⟩
  · rw [currentSquares_handlePlay]
    exact getD_set_self (by omega) _ _
  · intro j hj
    rw [currentSquares_handlePlay]
    exact getD_set_ne hj _ _
  · rw [currentSquares_handlePlay, List.length_set]

theorem handleClick_move_spec_witness : MovePost initialState 0 :=
  handleClick_move_spec initialState 0 (by decide) rfl rfl (by decide)

/-- C2: for every state and every cell index `i` in `0..8`, the click
leaves the entire state unchanged if and only if cell `i` of the current
snapshot is occupied or the win evaluator reports a winner. -/
theorem handleClick_noop_iff (s : GameState) (i : Nat) (_hi : i < 9) :
    handleClick s i = s ↔
      ((currentSquares s).getD i none ≠ none ∨
        calculateWinner (currentSquares s) ≠ none) := by
  constructor
  · intro heq
    by_contra hcon
    push_neg at hcon
    obtain ⟨he, hw⟩ := hcon
    rw [handleClick_of_accepted he hw] at heq
    set nb := (currentSquares s).set i
      (if xIsNext s then some Mark.X else some Mark.O) with hnb
    have h1 := congrArg GameState.history heq
    rw [history_handlePlay] at h1
    have hlen := congrArg List.length h1
    rw [List.length_append, List.length_take, List.length_cons,
      List.length_nil] at hlen
    have h2 : s.currentMove =
        (s.history.take (s.currentMove + 1) ++ [nb]).length - 1 := by
      conv_lhs => rw [← heq]
      rw [currentMove_handlePlay, history_handlePlay]
    rw [List.length_append, List.length_take, List.length_cons,
      List.length_nil] at h2
    omega
  · intro hor
    refine handleClick_of_rejected (fun hand => ?_)
    rcases hor with h | h
    · exact h hand.1
    · exact h hand.2

theorem handleClick_noop_iff_witness : handleClick occupiedState 0 = occupiedState :=
  (handleClick_noop_iff occupiedState 0 (by decide)).mpr (Or.inl (by decide))

/-- C3 counterexample: on the board whose top row is all `X` and whose
middle row is all `O`, the middle-row triple `(3, 4, 5)` is complete with
mark `O`, yet the evaluator does not return `O` (it returns `X`, the mark of
the earlier triple), so "the evaluator returns that mark" fails for that
triple. -/
theorem calculateWinner_not_every_line_mark :
    badBoard.length = 9 ∧ (3, 4, 5) ∈ lines ∧
      lineComplete badBoard (3, 4, 5) Mark.O ∧
      calculateWinner badBoard ≠ some Mark.O := by decide

/-- C3 (amended): for every board with three equal non-empty marks along at
least one of the 8 fixed triples, the evaluator returns the mark of some
complete triple; in particular, when every complete triple carries the same
mark, the evaluator returns that mark. -/
theorem calculateWinner_of_complete (squares : Board) (t : Nat × Nat × Nat)
    (m : Mark) (ht : t ∈ lines) (hc : lineComplete squares t m) :
    (∃ t' ∈ lines, ∃ m' : Mark, lineComplete squares t' m' ∧
        calculateWinner squares = some m') ∧
    ((∀ t' ∈ lines, ∀ m' : Mark, lineComplete squares t' m' → m' = m) →
      calculateWinner squares = some m) := by
  have hsome := winnerAux_isSome ht hc
  obtain ⟨m', hm'⟩ := Option.isSome_iff_exists.mp hsome
  obtain ⟨t', ht', hc'⟩ := winnerAux_eq_some hm'
  constructor
  · exact ⟨t', ht', m', hc', hm'⟩
  · intro huniq
    rw [calculateWinner, hm', huniq t' ht' m' hc']

theorem calculateWinner_of_complete_witness :
    (∃ t' ∈ lines, ∃ m' : Mark, lineComplete topRowBoard t' m' ∧
        calculateWinner topRowBoard = some m') ∧
    ((∀ t' ∈ lines, ∀ m' : Mark, lineComplete topRowBoard t' m' →
        m' = Mark.X) →
      calculateWinner topRowBoard = some Mark.X) :=
  calculateWinner_of_complete topRowBoard (0, 1, 2) Mark.X (by decide)
    (by decide)

/-- C4: the mark placed by an accepted move is determined solely by the
parity of the cursor: an even cursor places `X` and an odd cursor places
`O`. -/
theorem placedMark_parity (s : GameState) (i : Nat) (hi : i < 9)
    (hlen : (currentSquares s).length = 9)
    (he : (currentSquares s).getD i none = none)
    (hw : calculateWinner (currentSquares s) = none) :
    (currentSquares (handleClick s i)).getD i none =
      (if s.currentMove % 2 = 0 then some Mark.X else some Mark.O) := by
  rw [handleClick_of_accepted he hw, currentSquares_handlePlay,
    getD_set_self (by omega)]
  unfold xIsNext
  by_cases hpar : s.currentMove % 2 = 0
  · simp [hpar]
  · simp [hpar]

theorem placedMark_parity_witness :
    (currentSquares (handleClick initialState 0)).getD 0 none =
      (if initialState.currentMove % 2 = 0 then some Mark.X
        else some Mark.O) :=
  placedMark_parity initialState 0 (by decide) rfl rfl (by decide)

/-- C5: history navigation sets the cursor to exactly the target index and
leaves the history unchanged (same list, same length, every snapshot
identical). -/
theorem jumpTo_spec (s : GameState) (t : Nat) :
    (jumpTo s t).currentMove = t ∧ (jumpTo s t).history = s.history ∧
    (jumpTo s t).history.length = s.history.length ∧
    ∀ k, (jumpTo s t).history.getD k [] = s.history.getD k [] :=
  ⟨rfl, rfl, rfl, fun _ => rfl⟩

/-- C6: every reachable state has a valid cursor
(`0 ≤ cursor < length history`, the lower bound being inherent to `Nat`)
and its first snapshot is the all-empty board. -/
theorem reachable_invariants (s : GameState) (hs : Reachable s) :
    s.currentMove < s.history.length ∧
      s.history.getD 0 [] = emptyBoard :=
  ⟨(inv_reachable hs).1, (inv_reachable hs).2.1⟩

theorem reachable_invariants_witness :
    initialState.currentMove < initialState.history.length ∧
      initialState.history.getD 0 [] = emptyBoard :=
  reachable_invariants initialState Reachable.init

/-- C7 counterexample: `demoState` is reachable and winner-free, its cell 2
is empty, and the single move of clicking cell 2 completes two distinct
triples at once (`(0,1,2)` and `(2,4,6)`, both with `X`), refuting the
claim's aside that at most one triple can complete per move. -/
theorem twoLinesOneMove :
    Reachable demoState ∧
    calculateWinner (currentSquares demoState) = none ∧
    (currentSquares demoState).getD 2 none = none ∧
    lineComplete (currentSquares (handleClick demoState 2)) (0, 1, 2)
      Mark.X ∧
    lineComplete (currentSquares (handleClick demoState 2)) (2, 4, 6)
      Mark.X ∧
    ((0, 1, 2) : Nat × Nat × Nat) ≠ (2, 4, 6) := by
  refine ⟨?_, by decide, by decide, by decide, by decide, by decide⟩
  exact Reachable.move 8 (by decide) (Reachable.move 6 (by decide)
    (Reachable.move 7 (by decide) (Reachable.move 4 (by decide)
    (Reachable.move 5 (by decide) (Reachable.move 1 (by decide)
    (Reachable.move 3 (by decide) (Reachable.move 0 (by decide)
    Reachable.init)))))))

/-- C7 (amended): for every board, the evaluator returns the mark of the
first complete triple in the fixed enumeration order (every triple listed
earlier being incomplete); the claim's aside is wrong, since a single move
from a winner-free reachable board can complete two triples at once. -/
theorem calculateWinner_first_match (squares : Board)
    (pre post : List (Nat × Nat × Nat)) (t : Nat × Nat × Nat) (m : Mark)
    (hsplit : lines = pre ++ t :: post) (hc : lineComplete squares t m)
    (hpre : ∀ t' ∈ pre, ∀ m' : Mark, ¬ lineComplete squares t' m') :
    calculateWinner squares = some m := by
  rw [calculateWinner, hsplit]
  exact winnerAux_first pre post hc hpre

theorem calculateWinner_first_match_witness :
    calculateWinner badBoard = some Mark.X :=
  calculateWinner_first_match badBoard []
    [(3, 4, 5), (6, 7, 8), (0, 3, 6), (1, 4, 7), (2, 5, 8), (0, 4, 8),
     (2, 4, 6)]
    (0, 1, 2) Mark.X (by decide) (by decide) (by decide)

/-- C8: from the initial state, the move sequence cell 0, cell 4, cell 1,
cell 8, cell 2 yields the board `X X X / _ O _ / _ _ O`, on which the
evaluator reports `X` as the winner via the top-row triple `(0, 1, 2)`. -/
theorem example_game_top_row :
    currentSquares (handleClick (handleClick (handleClick (handleClick
        (handleClick initialState 0) 4) 1) 8) 2) =
      [some Mark.X, some Mark.X, some Mark.X, none, some Mark.O, none,
        none, none, some Mark.O] ∧
    lineComplete (currentSquares (handleClick (handleClick (handleClick
        (handleClick (handleClick initialState 0) 4) 1) 8) 2)) (0, 1, 2)
      Mark.X ∧
    calculateWinner (currentSquares (handleClick (handleClick (handleClick
        (handleClick (handleClick initialState 0) 4) 1) 8) 2)) =
      some Mark.X := by decide

/-- C9: for the all-empty board, the evaluator returns no winner. -/
theorem calculateWinner_emptyBoard : calculateWinner emptyBoard = none := by
  decide

/-- C10: in every reachable state the snapshot at index `k` of the history
has exactly `k` non-empty cells; consequently the history never holds more
than 10 snapshots, and once the current snapshot is full no further click
on any of the nine cells changes the state. -/
theorem reachable_history_counts (s : GameState) (hs : Reachable s) :
    (∀ k, k < s.history.length → countFilled (s.history.getD k []) = k) ∧
    s.history.length ≤ 10 ∧
    ((∀ j, j < 9 → (currentSquares s).getD j none ≠ none) →
      ∀ i, i < 9 → handleClick s i = s) := by
  obtain ⟨hcur, h0, hk⟩ := inv_reachable hs
  refine ⟨fun k hklt => (hk k hklt).2, ?_, ?_⟩
  · by_contra hlen
    push_neg at hlen
    obtain ⟨hl9, hc10⟩ := hk 10 (by omega)
    have := countFilled_le_length (s.history.getD 10 [])
    omega
  · intro hfull i hi
    refine handleClick_of_rejected (fun hand => ?_)
    exact hfull i hi hand.1

theorem reachable_history_counts_witness :
    (∀ k, k < initialState.history.length →
      countFilled (initialState.history.getD k []) = k) ∧
    initialState.history.length ≤ 10 ∧
    ((∀ j, j < 9 → (currentSquares initialState).getD j none ≠ none) →
      ∀ i, i < 9 → handleClick initialState i = initialState) :=
  reachable_history_counts initialState Reachable.init
